import Mathlib

/-!
Verification development for the bandai-manuals scraper.

Strings of the TypeScript source are modelled as `List Char`; machine
integers as `Nat`/`Int`.  Each definition below is a shallow embedding of a
function of the repository (the source file and symbol are named in its doc
comment).  I/O primitives (HTTP fetches, the filesystem, the SQL store) are
modelled as explicit parameters or explicit state.
-/

namespace BandaiManuals

/-! ## Whitespace and text cleanup (src/utils.ts, src/populate_db.ts) -/

/-- Model of the JavaScript regex class `\s` restricted to the whitespace
characters that can actually occur in the scraped text: ASCII whitespace,
NBSP, and the ideographic space. -/
def isJsWs (c : Char) : Bool :=
  c = ' ' ∨ c = '\t' ∨ c = '\n' ∨ c = '\r' ∨ c = '\x0b' ∨ c = '\x0c' ∨
  c = ' ' ∨ c = '　'

/-- Model of `String.prototype.replace(/\s+/g, ' ')`: every maximal run of
whitespace becomes a single space.  The Boolean flag records whether the
previous character was part of a whitespace run. -/
def collapseWsAux : Bool → List Char → List Char
  | _, [] => []
  | inRun, c :: rest =>
    if isJsWs c then
      if inRun then collapseWsAux true rest
      else ' ' :: collapseWsAux true rest
    else c :: collapseWsAux false rest

def collapseWs (l : List Char) : List Char := collapseWsAux false l

/-- Model of `String.prototype.trim()`. -/
def jsTrim (l : List Char) : List Char :=
  ((l.dropWhile isJsWs).reverse.dropWhile isJsWs).reverse

/-- `textClean` from src/populate_db.ts:
`s.replace(/\s+/g, ' ').trim()`. -/
def textClean (l : List Char) : List Char := jsTrim (collapseWs l)

/-! ## Uppercasing (model of `String.prototype.toUpperCase`) -/

def lowerChars : List Char := "abcdefghijklmnopqrstuvwxyz".toList

def upperChars : List Char := "ABCDEFGHIJKLMNOPQRSTUVWXYZ".toList

/-- Model of `toUpperCase` restricted to ASCII letters (the only characters
on which the grade table can match; other characters are returned
unchanged, as `toUpperCase` does for them). -/
def jsToUpper (c : Char) : Char :=
  match (lowerChars.zip upperChars).find? (fun pr => pr.1 = c) with
  | some pr => pr.2
  | none => c

/-! ## Grade inference (`inferGrade`, src/populate_db.ts) -/

/-- The ordered candidate table of `inferGrade`. -/
def gradeCandidates : List (List Char) :=
  [ "PG".toList, "MG".toList, "RG".toList, "HG".toList, "EG".toList,
    "SD".toList, "FM".toList, "RE/100".toList, "30MM".toList,
    "30MS".toList, "ENTRY GRADE".toList, "HGUC".toList, "HGBF".toList,
    "HGCE".toList, "HGBC".toList ]

/-- The `for (const c of candidates) if (upper.startsWith(c)) return c`
loop of `inferGrade`. -/
def firstPrefixMatch (upper : List Char) : List (List Char) → Option (List Char)
  | [] => none
  | c :: cs => if c.isPrefixOf upper then some c else firstPrefixMatch upper cs

/-- JavaScript `a || b` on strings held in nullable variables: `a` when it
is a non-empty string, else `b`. -/
def jsStrOr (a : Option (List Char)) (b : List Char) : List Char :=
  match a with
  | some s => if s = [] then b else s
  | none => b

/-- `(nameEn || nameJp || '')`. -/
def coalesceName (nameEn nameJp : Option (List Char)) : List Char :=
  jsStrOr nameEn (jsStrOr nameJp [])

/-- `inferGrade` from src/populate_db.ts. -/
def inferGrade (nameEn nameJp : Option (List Char)) : Option (List Char) :=
  let src := jsTrim (coalesceName nameEn nameJp)
  if src = [] then none
  else
    let upper := src.map jsToUpper
    match firstPrefixMatch upper gradeCandidates with
    | some c => some c
    | none =>
      let first := upper.takeWhile (fun c => c ≠ ' ')
      if first = [] then none else some first

/-! ## Release-date parsing (`parseReleaseDate`, src/populate_db.ts)

The two regexes `/(\d{4})年\s*(\d{1,2})月(?:\s*(\d{1,2})日)?/` and
`/(\d{4})[-\x2f](\d{1,2})[-\x2f](\d{1,2})/` are embedded with JavaScript
matching semantics: leftmost match position, greedy quantifiers with
backtracking inside a position.  Since `\d` and the literal units are
disjoint from `\s`, the greedy `\s*` never needs to backtrack and is a
plain `dropWhile`. -/

def digVal (c : Char) : Nat := c.toNat - 48

/-- Greedy `(\d{1,2})u` for a unit character test `u` (needed for `月`,
`日`, and the ISO separators): prefer two digits, fall back to one. -/
def oneOrTwoDigitsThen (u : Char → Bool) : List Char → Option (Nat × List Char)
  | a :: b :: c :: rest =>
    if a.isDigit ∧ b.isDigit ∧ u c then some (10 * digVal a + digVal b, rest)
    else if a.isDigit ∧ u b then some (digVal a, c :: rest)
    else none
  | [a, b] => if a.isDigit ∧ u b then some (digVal a, []) else none
  | _ => none

/-- Greedy `(\d{1,2})` at the end of the ISO pattern. -/
def oneOrTwoDigits : List Char → Option Nat
  | a :: b :: _ =>
    if a.isDigit ∧ b.isDigit then some (10 * digVal a + digVal b)
    else if a.isDigit then some (digVal a) else none
  | [a] => if a.isDigit then some (digVal a) else none
  | [] => none

/-- Attempt of the Japanese date regex at one position. -/
def jpMatchAt : List Char → Option (Nat × Nat × Option Nat)
  | a :: b :: c :: d :: e :: rest =>
    if a.isDigit ∧ b.isDigit ∧ c.isDigit ∧ d.isDigit ∧ e = '年' then
      let y := 1000 * digVal a + 100 * digVal b + 10 * digVal c + digVal d
      match oneOrTwoDigitsThen (fun ch => ch = '月') (rest.dropWhile isJsWs) with
      | some (mo, rest2) =>
        match oneOrTwoDigitsThen (fun ch => ch = '日') (rest2.dropWhile isJsWs) with
        | some (dd, _) => some (y, mo, some dd)
        | none => some (y, mo, none)
      | none => none
    else none
  | _ => none

/-- Leftmost match of the Japanese date regex. -/
def jpDateMatch : List Char → Option (Nat × Nat × Option Nat)
  | [] => none
  | c :: rest =>
    match jpMatchAt (c :: rest) with
    | some r => some r
    | none => jpDateMatch rest

def isIsoSep (c : Char) : Bool := c = '-' ∨ c = '/'

/-- Attempt of the ISO-like date regex at one position. -/
def isoMatchAt : List Char → Option (Nat × Nat × Nat)
  | a :: b :: c :: d :: e :: rest =>
    if a.isDigit ∧ b.isDigit ∧ c.isDigit ∧ d.isDigit ∧ isIsoSep e then
      let y := 1000 * digVal a + 100 * digVal b + 10 * digVal c + digVal d
      match oneOrTwoDigitsThen isIsoSep rest with
      | some (mo, rest2) =>
        match oneOrTwoDigits rest2 with
        | some dd => some (y, mo, dd)
        | none => none
      | none => none
    else none
  | _ => none

/-- Leftmost match of the ISO-like date regex. -/
def isoDateMatch : List Char → Option (Nat × Nat × Nat)
  | [] => none
  | c :: rest =>
    match isoMatchAt (c :: rest) with
    | some r => some r
    | none => isoDateMatch rest

/-- The combined match of `parseReleaseDate`: the Japanese pattern first,
the ISO pattern only when the Japanese one does not match at all. -/
def dateMatchOf (raw : List Char) : Option (Nat × Nat × Option Nat) :=
  match jpDateMatch raw with
  | some r => some r
  | none =>
    match isoDateMatch raw with
    | some (y, mo, d) => some (y, mo, some d)
    | none => none

/-! ### The `Date.UTC` round-trip check

`new Date(Date.UTC(y, mo - 1, d))` computes the epoch day number of
`(y, mo, 1)` plus `d - 1`, and the three getters recover the proleptic
Gregorian civil date of that day number (ECMAScript `MakeDay` /
`YearFromTime` etc.).  Both directions are the standard civil-date/epoch-day
conversions, embedded here with floored `Int` division. -/

def daysFromCivil (y m d : Int) : Int :=
  let y2 := if m ≤ 2 then y - 1 else y
  let era := Int.fdiv y2 400
  let yoe := y2 - era * 400
  let mp := if m > 2 then m - 3 else m + 9
  let doy := Int.fdiv (153 * mp + 2) 5 + d - 1
  let doe := yoe * 365 + Int.fdiv yoe 4 - Int.fdiv yoe 100 + doy
  era * 146097 + doe - 719468

def civilFromDays (z0 : Int) : Int × Int × Int :=
  let z := z0 + 719468
  let era := Int.fdiv z 146097
  let doe := z - era * 146097
  let yoe :=
    Int.fdiv (doe - Int.fdiv doe 1460 + Int.fdiv doe 36524 - Int.fdiv doe 146096) 365
  let y := yoe + era * 400
  let doy := doe - (365 * yoe + Int.fdiv yoe 4 - Int.fdiv yoe 100)
  let mp := Int.fdiv (5 * doy + 2) 153
  let d := doy - Int.fdiv (153 * mp + 2) 5 + 1
  let m := if mp < 10 then mp + 3 else mp - 9
  (if m ≤ 2 then y + 1 else y, m, d)

/-- `dt.getUTCFullYear() === y && dt.getUTCMonth() === mo - 1 &&
dt.getUTCDate() === d` for `dt = new Date(Date.UTC(y, mo - 1, d))`.
`Date.UTC` applies ECMAScript `MakeFullYear`: an integer year argument in
the inclusive range 0–99 is replaced by `1900 + year` before the day number
is computed, so for those years the `getUTCFullYear() === y` comparison can
never succeed. -/
def utcRoundtrip (y mo d : Nat) : Bool :=
  let yr : Int := if y ≤ 99 then (y : Int) + 1900 else (y : Int)
  civilFromDays (daysFromCivil yr (mo : Int) 1 + ((d : Int) - 1)) =
    ((y : Int), (mo : Int), (d : Int))

/-- Modelled from the spec: "reconstruct a calendar date and require
year/month/day to round-trip exactly" — the pure proleptic-Gregorian
recompose-and-compare of the claim's words, without `Date.UTC`'s remap of
years 0–99. -/
def specCalendarRoundtrip (y mo d : Nat) : Bool :=
  civilFromDays (daysFromCivil (y : Int) (mo : Int) 1 + ((d : Int) - 1)) =
    ((y : Int), (mo : Int), (d : Int))

def natToChars (n : Nat) : List Char := Nat.toDigits 10 n

/-- `String(n).padStart(2, '0')` for the 1–2 digit numbers of the parser. -/
def pad2 (n : Nat) : List Char :=
  if n < 10 then '0' :: natToChars n else natToChars n

/-- The ISO string `` `${y}-${mm}-${dd}` `` built on a successful parse. -/
def isoFormat (y mo d : Nat) : List Char :=
  natToChars y ++ '-' :: (pad2 mo ++ '-' :: pad2 d)

structure ParsedRelease where
  date : Option (List Char)
  raw : List Char
deriving DecidableEq

/-- `parseReleaseDate` from src/populate_db.ts. -/
def parseReleaseDate (text : List Char) : ParsedRelease :=
  let raw := textClean text
  match dateMatchOf raw with
  | none => ⟨none, raw⟩
  | some (y, mo, dayOpt) =>
    if 1 ≤ mo ∧ mo ≤ 12 then
      match dayOpt with
      | some d =>
        if utcRoundtrip y mo d then ⟨some (isoFormat y mo d), raw⟩
        else ⟨none, raw⟩
      | none => ⟨none, raw⟩
    else ⟨none, raw⟩

/-- The release-date text a scraped item stores (src/populate_db.ts,
`scrapePage`): the `dd` node text passed through `textClean`, and
`releaseDateText || null` when building the item. -/
def storedReleaseDateText (ddText : List Char) : Option (List Char) :=
  let t := textClean ddText
  if t = [] then none else some t

/-- No two adjacent whitespace characters. -/
def noAdjWs : List Char → Bool
  | [] => true
  | [_] => true
  | a :: b :: rest => (!(isJsWs a && isJsWs b)) && noAdjWs (b :: rest)

/-- A text is in normalized form when all its whitespace consists of single
interior spaces: no non-space whitespace character, no two adjacent
whitespace characters, no leading or trailing whitespace. -/
def normalizedText (l : List Char) : Bool :=
  l.all (fun c => !isJsWs c || c = ' ') && noAdjWs l &&
    (match l.head? with
     | some c => !isJsWs c
     | none => true) &&
    (match l.getLast? with
     | some c => !isJsWs c
     | none => true)

/-- The relation "not both whitespace" on adjacent characters (the
`List.Chain'` view of `noAdjWs`). -/
def notBothWs (a b : Char) : Prop := ¬(isJsWs a = true ∧ isJsWs b = true)

/-! ## Scraped items and the pagination walker (src/populate_db.ts `main`) -/

/-- The `Item` record built by `scrapePage`. -/
structure Item where
  manualId : Nat
  detailPath : List Char
  detailUrl : List Char
  pdfUrl : List Char
  nameJp : Option (List Char)
  nameEn : Option (List Char)
  grade : Option (List Char)
  releaseDate : Option (List Char)
  releaseDateText : Option (List Char)
  imageUrl : Option (List Char)
deriving DecidableEq

/-- The observable outcome of one `scrapePage(pageNum)` call: the extracted
items and the `page` query parameter echoed on the final (possibly
redirected) response URL.  `zeroItems` of the source is `items = []`. -/
structure ScrapeResult where
  items : List Item
  finalPageParam : Option Int
deriving DecidableEq

inductive StopReason where
  | emptyPage
  | redirect
deriving DecidableEq

inductive WalkResult where
  | stopped (reason : StopReason) (pagesFetched : Nat) (upserted : List Item)
  | outOfFuel (pagesFetched : Nat) (upserted : List Item)
deriving DecidableEq

def WalkResult.pagesFetched : WalkResult → Nat
  | .stopped _ n _ => n
  | .outOfFuel n _ => n

def WalkResult.isStopped : WalkResult → Bool
  | .stopped _ _ _ => true
  | .outOfFuel _ _ => false

def WalkResult.upserted : WalkResult → List Item
  | .stopped _ _ u => u
  | .outOfFuel _ u => u

/-- The `while (true)` pagination loop of `main` in src/populate_db.ts,
parameterised by the server (`scrapePage`) and a fuel bound so the model is
total.  Faithful check order per iteration: the zero-items stop first, then
the echoed-page mismatch stop (`finalPageParam !== null && finalPageParam
!== page`), and only then the per-item upserts, before `page += 1`.  The
loop itself has no page cap: `.outOfFuel` marks a run that was still going
when the model's fuel ran out. -/
def walkFrom (server : Nat → ScrapeResult) :
    Nat → Nat → Nat → List Item → WalkResult
  | 0, _, fetched, acc => .outOfFuel fetched acc
  | fuel + 1, page, fetched, acc =>
    let r := server page
    if r.items = [] then .stopped .emptyPage (fetched + 1) acc
    else if (match r.finalPageParam with
             | some e => e != (page : Int)
             | none => false) then
      .stopped .redirect (fetched + 1) acc
    else walkFrom server fuel (page + 1) (fetched + 1) (acc ++ r.items)

/-- A full run: `let page = 1` then the loop. -/
def walk (server : Nat → ScrapeResult) (fuel : Nat) : WalkResult :=
  walkFrom server fuel 1 0 []

/-- The items of pages `first, first+1, …, first+count-1`, in page order —
what the walker has upserted after fully processing those pages. -/
def pageSpan (server : Nat → ScrapeResult) (first count : Nat) : List Item :=
  (List.range' first count).flatMap (fun p => (server p).items)

/-- A server that answers every page with one item and a correctly echoed
page parameter — never empty, never redirected. -/
def dummyItem : Item :=
  ⟨1, [], [], [], none, none, none, none, none, none⟩

def alwaysFullServer (p : Nat) : ScrapeResult :=
  ⟨[dummyItem], some (p : Int)⟩

/-! ## The generic crawler (src/crawler.ts `Crawler.crawl`)

The only component with a page cap.  Its BFS loop is embedded with the page
processing abstracted into `fetch : url → Option (list of next links)`
(`none` models a fetch failure, which the crawler skips); the PDF/manual-page
accumulation of the source does not influence which URLs are visited and is
omitted.  `seen` is the insertion-ordered visited set; `visitedCount` of the
result is its size. -/
def defaultCrawlerMaxPages : Nat := 250

def crawlLoop (fetch : List Char → Option (List (List Char))) (maxPages : Nat) :
    Nat → List (List Char) → List (List Char) → List (List Char)
  | 0, _, seen => seen
  | _ + 1, [], seen => seen
  | fuel + 1, url :: rest, seen =>
    if seen.length < maxPages then
      if url ∈ seen then crawlLoop fetch maxPages fuel rest seen
      else
        match fetch url with
        | none => crawlLoop fetch maxPages fuel rest (seen ++ [url])
        | some links =>
          crawlLoop fetch maxPages fuel
            (rest ++ links.filter (fun n => n ∉ seen ++ [url]))
            (seen ++ [url])
    else seen

/-! ## The persistence store and `upsertItem` (src/populate_db.ts,
migrations/001_bandai_manuals.sql)

The `bandai.manuals` table is a list of rows; `manual_id` is the PRIMARY
KEY and `pdf_url` carries a UNIQUE constraint, the only two constraints an
upsert can trip over.  Timestamps are abstract `Nat` clock values; `now()`
is passed in explicitly. -/

structure DbRow where
  manual_id : Nat
  detail_path : Option (List Char)
  detail_url : Option (List Char)
  pdf_url : Option (List Char)
  pdf_local_path : Option (List Char)
  name_jp : Option (List Char)
  name_en : Option (List Char)
  grade : Option (List Char)
  release_date : Option (List Char)
  release_date_text : Option (List Char)
  image_url : Option (List Char)
  created_at : Nat
  updated_at : Nat
deriving DecidableEq

/-- The inserted row of `upsertItem`'s `INSERT` branch (`created_at` and
`updated_at` take their `DEFAULT now()`; `pdf_local_path` is not in the
column list, so it is NULL). -/
def rowOfItem (now : Nat) (it : Item) : DbRow where
  manual_id := it.manualId
  detail_path := some it.detailPath
  detail_url := some it.detailUrl
  pdf_url := some it.pdfUrl
  pdf_local_path := none
  name_jp := it.nameJp
  name_en := it.nameEn
  grade := it.grade
  release_date := it.releaseDate
  release_date_text := it.releaseDateText
  image_url := it.imageUrl
  created_at := now
  updated_at := now

/-- The `ON CONFLICT (manual_id) DO UPDATE SET …` list: every mutable
column is overwritten from the excluded row and `updated_at = now()`;
`manual_id`, `pdf_local_path` and `created_at` are not in the SET list. -/
def applyUpdate (now : Nat) (it : Item) (r : DbRow) : DbRow :=
  { r with
    detail_path := some it.detailPath
    detail_url := some it.detailUrl
    pdf_url := some it.pdfUrl
    name_jp := it.nameJp
    name_en := it.nameEn
    grade := it.grade
    release_date := it.releaseDate
    release_date_text := it.releaseDateText
    image_url := it.imageUrl
    updated_at := now }

/-- `upsertItem` from src/populate_db.ts against the schema of
migrations/001: insert-or-update keyed on `manual_id`; `.error ()` models
the UNIQUE violation on `pdf_url` that Postgres would raise when another
row (a different `manual_id`) already holds the same `pdf_url`. -/
def upsertItem (now : Nat) (db : List DbRow) (it : Item) :
    Except Unit (List DbRow) :=
  if db.any (fun r => decide (r.manual_id = it.manualId)) then
    if db.any (fun r =>
        decide (r.manual_id ≠ it.manualId ∧ r.pdf_url = some it.pdfUrl)) then
      .error ()
    else
      .ok (db.map (fun r =>
        if r.manual_id = it.manualId then applyUpdate now it r else r))
  else
    if db.any (fun r => decide (r.pdf_url = some it.pdfUrl)) then .error ()
    else .ok (db ++ [rowOfItem now it])

/-- The row the store holds for an id. -/
def findId (db : List DbRow) (id : Nat) : Option DbRow :=
  db.find? (fun r => decide (r.manual_id = id))

/-- How many rows the store holds for an id. -/
def countId (db : List DbRow) (id : Nat) : Nat :=
  (db.filter (fun r => decide (r.manual_id = id))).length

/-! ## Path algebra (src/paths.ts, node:path POSIX semantics)

An absolute filesystem path is modelled as its list of segments after
normalization (`''` and `'.'` segments dropped, `'..'` pops).  Stored
`pdf_local_path` values stay strings (`List Char`), since the code
distinguishes absolute from relative values and applies `path.resolve` /
`path.relative` to them.  `fs.existsSync` is modelled as membership of the
normalized path in an explicit set of existing files (OS-level symlink and
missing-intermediate-directory subtleties of literal `..` components are
outside the model). -/

def Segs : Type := List (List Char)

instance : DecidableEq Segs := by
  unfold Segs
  infer_instance

instance : Append Segs := ⟨fun a b => List.append a b⟩

instance : Membership Segs (List Segs) := ⟨fun l s => List.Mem s l⟩

/-- Split a path string at `'/'` (keeping empty segments, which
normalization then drops). -/
def splitOnSlash : List Char → List (List Char)
  | [] => [[]]
  | c :: rest =>
    if c = '/' then [] :: splitOnSlash rest
    else
      match splitOnSlash rest with
      | s :: ss => (c :: s) :: ss
      | [] => [[c]]

/-- POSIX path normalization folded over raw segments, on top of an
already-normalized accumulator: `''`/`'.'` vanish, `'..'` pops (at the root
it is dropped, as `path.resolve` does). -/
def normalizeInto (acc : List (List Char)) : List (List Char) → List (List Char)
  | [] => acc
  | s :: rest =>
    if s = [] ∨ s = ['.'] then normalizeInto acc rest
    else if s = ['.', '.'] then normalizeInto acc.dropLast rest
    else normalizeInto (acc ++ [s]) rest

def isAbsolutePath (p : List Char) : Bool := p.head? = some '/'

/-- `path.resolve(base, p)` for an absolute, normalized `base`: an absolute
`p` resolves to itself (normalized), a relative one against `base`. -/
def resolveAbs (base : List (List Char)) (p : List Char) : List (List Char) :=
  if isAbsolutePath p then normalizeInto [] (splitOnSlash p)
  else normalizeInto base (splitOnSlash p)

/-- Longest common segment prefix, returning both remainders. -/
def dropCommon : List (List Char) → List (List Char) →
    List (List Char) × List (List Char)
  | a :: as, b :: bs => if a = b then dropCommon as bs else (a :: as, b :: bs)
  | as, bs => (as, bs)

def joinWith (sep : List Char) : List (List Char) → List Char
  | [] => []
  | [s] => s
  | s :: rest => s ++ sep ++ joinWith sep rest

/-- `path.relative(frm, to)` on absolute normalized paths: one `..` per
remaining segment of `frm`, then the remaining segments of `to`. -/
def relString (frm tgt : List (List Char)) : List Char :=
  let pr := dropCommon frm tgt
  joinWith ['/'] (pr.1.map (fun _ => ['.', '.']) ++ pr.2)

/-! ## Download orchestrator (src/download_from_db.ts) -/

/-- The `Row` type selected by `selectRows` (src/download_from_db.ts). -/
structure DRow where
  manual_id : Nat
  name_en : Option (List Char)
  name_jp : Option (List Char)
  pdf_url : List Char
  pdf_local_path : Option (List Char)
deriving DecidableEq

/-- The download configuration: `cwd` = `process.cwd()`, `root` =
`filesRoot()` (both as absolute normalized segment lists), `subdir` = the
`SUBDIR` env segments, so `root ++ subdir` is `OUT_DIR =
joinFiles(SUBDIR)`. -/
structure DlCfg where
  cwd : List (List Char)
  root : List (List Char)
  subdir : List (List Char)

/-- `sanitizeFilename` from src/utils.ts: filesystem-hostile characters to
`'-'`, whitespace runs collapsed, trimmed, `'file'` when empty. -/
def isFsHostile (c : Char) : Bool :=
  c = '/' ∨ c = ':' ∨ c = '*' ∨ c = '?' ∨ c = '"' ∨ c = '<' ∨ c = '>' ∨ c = '|'

def sanitizeFilename (input : List Char) : List Char :=
  let base := jsTrim (collapseWs (input.map (fun c => if isFsHostile c then '-' else c)))
  if base = [] then "file".toList else base

/-- The basename `` `${manual_id}-${sanitizeFilename(name_en || name_jp ||
'manual')}.pdf` `` of `expectedOutPath`. -/
def baseNameOf (r : DRow) : List Char :=
  natToChars r.manual_id ++ '-' ::
    (sanitizeFilename (jsStrOr r.name_en (jsStrOr r.name_jp ("manual".toList)))
      ++ ".pdf".toList)

/-- `expectedOutPath(r) = path.join(OUT_DIR, base)` as segments. -/
def expectedOutSegs (cfg : DlCfg) (r : DRow) : List (List Char) :=
  cfg.root ++ cfg.subdir ++ [baseNameOf r]

/-- The persisted side effects of one download task. -/
inductive DlEffect where
  | setPath (id : Nat) (p : List Char)
  | netFetch (url : List Char)
deriving DecidableEq

/-- `path.isAbsolute(dbPath) ? dbPath : path.resolve(dbPath)` — the legacy
interpretation of a stored path (an absolute value stands alone, a relative
one resolves against the working directory). -/
def legacyAbsOf (cfg : DlCfg) (p : List Char) : List (List Char) :=
  if isAbsolutePath p then normalizeInto [] (splitOnSlash p)
  else resolveAbs cfg.cwd p

/-- The tail of `downloadRow` once the stored-path checks fall through:
skip-and-persist when the expected file exists, otherwise attempt the
download (`net` says whether the HTTP fetch succeeds).  Returns the `true =
downloaded` flag, the persisted effects in order, and the filesystem after
the call. -/
def downloadRowFresh (cfg : DlCfg) (net : List Char → Bool)
    (fs : List (List (List Char))) (r : DRow) :
    Bool × List DlEffect × List (List (List Char)) :=
  let outSegs := expectedOutSegs cfg r
  if outSegs ∈ fs then
    (false, [DlEffect.setPath r.manual_id (relString cfg.root outSegs)], fs)
  else if net r.pdf_url then
    (true,
     [DlEffect.netFetch r.pdf_url,
      DlEffect.setPath r.manual_id (relString cfg.root outSegs)],
     fs ++ [outSegs])
  else (false, [DlEffect.netFetch r.pdf_url], fs)

/-- `downloadRow` from src/download_from_db.ts.  Check order: a non-empty
stored `pdf_local_path` is first resolved with `path.resolve(filesRoot(),
dbPath)` (skip when that exists), then reinterpreted as a legacy
absolute/CWD-relative path (skip, rewriting the stored path to root-relative
only when `path.relative(filesRoot(), abs2)` does not start with `'..'`);
only then the expected path short-circuit and the network. -/
def downloadRow (cfg : DlCfg) (net : List Char → Bool)
    (fs : List (List (List Char))) (r : DRow) :
    Bool × List DlEffect × List (List (List Char)) :=
  let dbp := match r.pdf_local_path with
             | some p => p
             | none => []
  if dbp ≠ [] then
    let abs1 := resolveAbs cfg.root dbp
    if abs1 ∈ fs then (false, [], fs)
    else
      let abs2 := legacyAbsOf cfg dbp
      if abs2 ∈ fs then
        if ("..".toList).isPrefixOf (relString cfg.root abs2) then
          (false, [], fs)
        else
          (false, [DlEffect.setPath r.manual_id (relString cfg.root abs2)], fs)
      else downloadRowFresh cfg net fs r
  else downloadRowFresh cfg net fs r

/-- The `Promise.all(rows.map((r) => limit(() => downloadRow(r))))` batch of
`main`, with the per-task effects kept per row.  Each task is independent;
the model threads the filesystem in row order. -/
def runBatch (cfg : DlCfg) (net : List Char → Bool)
    (fs : List (List (List Char))) :
    List DRow → List (Bool × List DlEffect) × List (List (List Char))
  | [] => ([], fs)
  | r :: rest =>
    let step := downloadRow cfg net fs r
    let restRun := runBatch cfg net step.2.2 rest
    ((step.1, step.2.1) :: restRun.1, restRun.2)

/-! ## Definitions taken from the specification's words (for comparison
with the code; marked `spec*`) -/

/-- Modelled from the spec: "fall back to the first whitespace-delimited
token of the name" — the first token of the uppercased name up to any
whitespace character (the code splits on the space character only). -/
def specFirstWsToken (upper : List Char) : List Char :=
  upper.takeWhile (fun c => ¬ isJsWs c)

/-- Modelled from the spec: "resolve it relative to the storage root" read
as interpreting the stored value as a root-relative path — prepending the
storage root (the code instead uses `path.resolve`, which ignores the root
whenever the stored value is absolute). -/
def specRootResolve (root : List (List Char)) (p : List Char) :
    List (List Char) :=
  normalizeInto root (splitOnSlash p)

/-! ## Helper lemmas -/

theorem find?_cons_ne {α : Type} {p : α → Bool} {a b : α} {l : List α}
    (h : List.find? p (a :: l) = some b) (hne : a ≠ b) :
    p a = false ∧ List.find? p l = some b := by
  cases hp : p a
  · rw [List.find?_cons, hp] at h; exact ⟨rfl, h⟩
  · rw [List.find?_cons, hp] at h; simp at h; exact absurd h hne

theorem head?_dropWhile_false {α : Type} (p : α → Bool) (l : List α) (c : α)
    (h : (l.dropWhile p).head? = some c) : p c = false := by
  induction l with
  | nil => simp at h
  | cons a l ih =>
    by_cases hp : p a
    · simp [List.dropWhile_cons, hp] at h; exact ih h
    · simp [List.dropWhile_cons, hp] at h; subst h; simpa using hp

theorem head?_of_isPrefix {α : Type} {l m : List α} (h : l <+: m) {c : α}
    (hc : l.head? = some c) : m.head? = some c := by
  obtain ⟨t, rfl⟩ := h
  cases l
  · simp at hc
  · simpa using hc

/-- The head of a trimmed string is not whitespace. -/
theorem jsTrim_head_not_ws (l : List Char) (c : Char)
    (h : (jsTrim l).head? = some c) : isJsWs c = false := by
  unfold jsTrim at h
  have hpre : ((l.dropWhile isJsWs).reverse.dropWhile isJsWs).reverse <+:
      l.dropWhile isJsWs := by
    have h1 : (l.dropWhile isJsWs).reverse.dropWhile isJsWs <:+
        (l.dropWhile isJsWs).reverse := List.dropWhile_suffix isJsWs
    have h2 := List.reverse_prefix.mpr h1
    rwa [List.reverse_reverse] at h2
  have hm : (l.dropWhile isJsWs).head? = some c := head?_of_isPrefix hpre h
  exact head?_dropWhile_false isJsWs l c hm

theorem jsToUpper_not_space (c : Char) (h : isJsWs c = false) :
    jsToUpper c ≠ ' ' := by
  unfold jsToUpper
  cases hf : (lowerChars.zip upperChars).find? (fun pr => pr.1 = c) with
  | none =>
    intro hc
    subst hc
    simp [isJsWs] at h
  | some pr =>
    have hmem : pr ∈ lowerChars.zip upperChars := List.mem_of_find?_eq_some hf
    have : ∀ q ∈ lowerChars.zip upperChars, q.2 ≠ ' ' := by decide
    exact this pr hmem

/-- The fallback token of `inferGrade` is non-empty whenever the trimmed
source name is. -/
theorem fallback_token_ne_nil (src : List Char) (hsrc : src ≠ [])
    (hhead : ∀ c, src.head? = some c → isJsWs c = false) :
    (src.map jsToUpper).takeWhile (fun c => c ≠ ' ') ≠ [] := by
  cases src with
  | nil => exact absurd rfl hsrc
  | cons c rest =>
    have hws : isJsWs c = false := hhead c rfl
    have hup : jsToUpper c ≠ ' ' := jsToUpper_not_space c hws
    simp [List.takeWhile_cons, hup]

theorem firstPrefixMatch_eq_find? (upper : List Char) (l : List (List Char)) :
    firstPrefixMatch upper l = l.find? (fun c => c.isPrefixOf upper) := by
  induction l with
  | nil => rfl
  | cons c cs ih =>
    rw [List.find?_cons]
    cases hp : c.isPrefixOf upper <;> simp [firstPrefixMatch, hp, ih]

/-! ## C4 — grade inference -/

/-- C4 counterexample: on the name `"zz<TAB>q"` no candidate matches, and
`inferGrade` returns the whole uppercased name `"ZZ<TAB>Q"` — the code
splits on the space character only — while the first *whitespace*-delimited
token, as the claim states it, is `"ZZ"`. -/
theorem inferGrade_tab_counterexample :
    inferGrade (some ("zz\tq".toList)) none = some ("ZZ\tQ".toList)
    ∧ specFirstWsToken ("ZZ\tQ".toList) = "ZZ".toList
    ∧ "ZZ\tQ".toList ≠ "ZZ".toList
    ∧ "ZZ\tQ".toList ∉ gradeCandidates := by decide

/-- C4 (amended): `inferGrade` uppercases the preferred name (foreign if
non-empty, else native) and returns the first entry of the fixed ordered
candidate list that is a prefix of it; if no candidate matches it returns
the first *space-delimited* (U+0020) token of the uppercased name; it
returns `none` exactly when the trimmed source name is empty; and
`"MG Ex Strike Freedom"` yields `"MG"`, the first matching candidate. -/
theorem inferGrade_characterization :
    (∀ en jp, inferGrade en jp = none ↔ jsTrim (coalesceName en jp) = [])
    ∧ (∀ en jp, jsTrim (coalesceName en jp) ≠ [] →
        inferGrade en jp =
          (match gradeCandidates.find? (fun c =>
              c.isPrefixOf (((jsTrim (coalesceName en jp))).map jsToUpper)) with
           | some c => some c
           | none =>
             some ((((jsTrim (coalesceName en jp))).map jsToUpper).takeWhile
               (fun c => c ≠ ' '))))
    ∧ inferGrade (some ("MG Ex Strike Freedom".toList)) none =
        some ("MG".toList) := by
  refine ⟨fun en jp => ?_, fun en jp hsrc => ?_, by decide⟩
  · unfold inferGrade
    by_cases hsrc : jsTrim (coalesceName en jp) = []
    · simp [hsrc]
    · have hfb := fallback_token_ne_nil (jsTrim (coalesceName en jp)) hsrc
        (fun c hc => jsTrim_head_not_ws (coalesceName en jp) c hc)
      simp only [hsrc, if_false]
      cases hm : firstPrefixMatch
          ((jsTrim (coalesceName en jp)).map jsToUpper) gradeCandidates with
      | some c => simp [hsrc]
      | none =>
        rw [if_neg hfb]
        simp [hsrc]
  · have hfb := fallback_token_ne_nil (jsTrim (coalesceName en jp)) hsrc
      (fun c hc => jsTrim_head_not_ws (coalesceName en jp) c hc)
    unfold inferGrade
    simp only [hsrc, if_false]
    rw [firstPrefixMatch_eq_find?]
    cases hm : gradeCandidates.find? (fun c =>
        c.isPrefixOf (((jsTrim (coalesceName en jp))).map jsToUpper)) with
    | some c => rfl
    | none => rw [if_neg hfb]

/-- Witness for `inferGrade_characterization`: the hypotheses discharged at
the concrete name `"MG Ex Strike Freedom"`. -/
theorem inferGrade_characterization_witness :
    jsTrim (coalesceName (some ("MG Ex Strike Freedom".toList)) none) ≠ [] ∧
    inferGrade (some ("MG Ex Strike Freedom".toList)) none =
      (match gradeCandidates.find? (fun c =>
          c.isPrefixOf (((jsTrim (coalesceName
            (some ("MG Ex Strike Freedom".toList)) none))).map jsToUpper)) with
       | some c => some c
       | none =>
         some ((((jsTrim (coalesceName
           (some ("MG Ex Strike Freedom".toList)) none))).map jsToUpper).takeWhile
           (fun c => c ≠ ' '))) :=
  ⟨by decide,
   inferGrade_characterization.2.1 (some ("MG Ex Strike Freedom".toList)) none
     (by decide)⟩

/-! ## C10 — the HG-prefixed candidates below `HG` are unreachable -/

theorem inferGrade_hg_shadowed (en jp : Option (List Char)) (s : List Char)
    (hhg : ("HG".toList) <+: s)
    (h1 : s ≠ "PG".toList) (h2 : s ≠ "MG".toList) (h3 : s ≠ "RG".toList)
    (h4 : s ≠ "HG".toList) :
    inferGrade en jp ≠ some s := by
  intro h
  unfold inferGrade at h
  by_cases hsrc : jsTrim (coalesceName en jp) = []
  · simp [hsrc] at h
  · simp only [hsrc, if_false] at h
    rw [firstPrefixMatch_eq_find?] at h
    set upper := ((jsTrim (coalesceName en jp))).map jsToUpper with hupper
    cases hm : gradeCandidates.find? (fun c => c.isPrefixOf upper) with
    | some c =>
      rw [hm] at h
      simp only [Option.some.injEq] at h
      subst h
      have hps := List.find?_some hm
      have hcu : c <+: upper := List.isPrefixOf_iff_prefix.mp hps
      have hhgu : ("HG".toList) <+: upper := hhg.trans hcu
      unfold gradeCandidates at hm
      have s1 := find?_cons_ne hm (by intro hc; exact h1 hc.symm)
      have s2 := find?_cons_ne s1.2 (by intro hc; exact h2 hc.symm)
      have s3 := find?_cons_ne s2.2 (by intro hc; exact h3 hc.symm)
      have s4 := find?_cons_ne s3.2 (by intro hc; exact h4 hc.symm)
      have h5 : ("HG".toList).isPrefixOf upper = false := by simpa using s4.1
      have h6 : ("HG".toList).isPrefixOf upper = true :=
        List.isPrefixOf_iff_prefix.mpr hhgu
      rw [h6] at h5
      exact absurd h5 (by simp)
    | none =>
      rw [hm] at h
      have hfb := fallback_token_ne_nil (jsTrim (coalesceName en jp)) hsrc
        (fun c hc => jsTrim_head_not_ws (coalesceName en jp) c hc)
      rw [← hupper] at hfb
      simp only [hfb, if_false, Option.some.injEq] at h
      have htake : (upper.takeWhile (fun c => c ≠ ' ')) <+: upper :=
        List.takeWhile_prefix _
      rw [h] at htake
      have hhgu : ("HG".toList) <+: upper := hhg.trans htake
      have hnone := List.find?_eq_none.mp hm ("HG".toList) (by decide)
      exact hnone (List.isPrefixOf_iff_prefix.mpr hhgu)

/-- C10: `inferGrade` can never return `HGUC`, `HGBF`, `HGCE` or `HGBC`:
each is shadowed by the earlier candidate `HG`, both in the candidate scan
and in the first-token fallback. -/
theorem inferGrade_never_hg_subfamily (en jp : Option (List Char)) :
    inferGrade en jp ≠ some ("HGUC".toList)
    ∧ inferGrade en jp ≠ some ("HGBF".toList)
    ∧ inferGrade en jp ≠ some ("HGCE".toList)
    ∧ inferGrade en jp ≠ some ("HGBC".toList) :=
  ⟨inferGrade_hg_shadowed en jp _ (by decide) (by decide) (by decide)
      (by decide) (by decide),
   inferGrade_hg_shadowed en jp _ (by decide) (by decide) (by decide)
      (by decide) (by decide),
   inferGrade_hg_shadowed en jp _ (by decide) (by decide) (by decide)
      (by decide) (by decide),
   inferGrade_hg_shadowed en jp _ (by decide) (by decide) (by decide)
      (by decide) (by decide)⟩

/-! ## C3 — structured-date validity -/

/-- C3 counterexample: `"0024年2月3日"` matches with day 3 and month 2 in
range, and year 24 / February / 3 recompose to the same valid calendar
date under the claim's words (`specCalendarRoundtrip`), yet the program
stores a null structured date: `Date.UTC` remaps the year 24 to 1924, so
the `getUTCFullYear() === 24` comparison fails. -/
theorem parseReleaseDate_year_remap_counterexample :
    dateMatchOf (textClean ("0024年2月3日".toList)) = some (24, 2, some 3)
    ∧ (1 ≤ 2 ∧ 2 ≤ 12)
    ∧ specCalendarRoundtrip 24 2 3 = true
    ∧ (parseReleaseDate ("0024年2月3日".toList)).date = none := by decide

/-- C3 (amended): whenever the combined regex match of `parseReleaseDate`
carries a day, the structured date is non-null exactly when the month is in
1–12 and year/month/day survive the `Date.UTC` recompose-and-compare
round-trip; for matched years ≥ 100 that round-trip coincides with the pure
calendar-validity round-trip of the claim's words, but `Date.UTC` remaps
years 0–99 to `1900 + year`, so a matched year 0000–0099 yields a null
structured date even on a valid calendar date (`"0024年2月3日"`); with no
day the structured date is null; `"2024年2月30日"` yields null and
`"2024年11月8日"` yields `"2024-11-08"`. -/
theorem parseReleaseDate_day_validity :
    (∀ t y mo d, dateMatchOf (textClean t) = some (y, mo, some d) →
        ((parseReleaseDate t).date ≠ none ↔
          (1 ≤ mo ∧ mo ≤ 12 ∧ utcRoundtrip y mo d = true)))
    ∧ (∀ t y mo, dateMatchOf (textClean t) = some (y, mo, none) →
        (parseReleaseDate t).date = none)
    ∧ (∀ y mo d, 100 ≤ y → utcRoundtrip y mo d = specCalendarRoundtrip y mo d)
    ∧ (parseReleaseDate ("0024年2月3日".toList)).date = none
    ∧ (parseReleaseDate ("2024年2月30日".toList)).date = none
    ∧ (parseReleaseDate ("2024年11月8日".toList)).date =
        some ("2024-11-08".toList) := by
  refine ⟨fun t y mo d hm => ?_, fun t y mo hm => ?_, fun y mo d hy => ?_,
    by decide, by decide, by decide⟩
  · unfold parseReleaseDate
    simp only [hm]
    split_ifs with h1 h2 <;> simp_all
  · unfold parseReleaseDate
    simp only [hm]
    split_ifs <;> simp
  · simp only [utcRoundtrip, specCalendarRoundtrip]
    rw [if_neg (by omega)]

/-- Witness for `parseReleaseDate_day_validity` at `"2024年11月8日"`. -/
theorem parseReleaseDate_day_validity_witness :
    (parseReleaseDate ("2024年11月8日".toList)).date ≠ none ↔
      (1 ≤ 11 ∧ 11 ≤ 12 ∧ utcRoundtrip 2024 11 8 = true) :=
  parseReleaseDate_day_validity.1 ("2024年11月8日".toList) 2024 11 8 (by decide)

/-! ## C9 — the stored release-date text -/

/-- C9 counterexample: a source date text with a run of two spaces is not
stored unchanged — `scrapePage` passes it through `textClean`, which
collapses the run. -/
theorem storedReleaseDateText_counterexample :
    storedReleaseDateText ("2024年  11月8日".toList) =
      some ("2024年 11月8日".toList)
    ∧ storedReleaseDateText ("2024年  11月8日".toList) ≠
      some ("2024年  11月8日".toList) := by decide

/-- The relation "not both whitespace" on adjacent characters. -/
theorem noAdjWs_cons2 (a b : Char) (r : List Char) :
    noAdjWs (a :: b :: r) = ((!(isJsWs a && isJsWs b)) && noAdjWs (b :: r)) :=
  rfl

theorem collapseWsAux_cons (b : Bool) (c : Char) (rest : List Char) :
    collapseWsAux b (c :: rest) =
      if isJsWs c then
        (if b then collapseWsAux true rest else ' ' :: collapseWsAux true rest)
      else c :: collapseWsAux false rest := rfl

theorem noAdjWs_iff_chain' (l : List Char) :
    noAdjWs l = true ↔ l.Chain' notBothWs := by
  induction l with
  | nil => simp [noAdjWs]
  | cons a t ih =>
    cases t with
    | nil => simp [noAdjWs]
    | cons b r =>
      rw [List.chain'_cons, ← ih, noAdjWs_cons2, Bool.and_eq_true]
      constructor
      · rintro ⟨h1, h2⟩
        refine ⟨fun hc => ?_, h2⟩
        rw [hc.1, hc.2] at h1
        simp at h1
      · rintro ⟨h1, h2⟩
        refine ⟨?_, h2⟩
        cases ha : isJsWs a with
        | false => simp
        | true =>
          cases hb : isJsWs b with
          | false => simp
          | true => exact absurd ⟨ha, hb⟩ h1

theorem collapseWsAux_all_space (l : List Char) :
    ∀ b, (collapseWsAux b l).all (fun c => !isJsWs c || c = ' ') = true := by
  induction l with
  | nil => intro b; rfl
  | cons c rest ih =>
    intro b
    rw [collapseWsAux_cons]
    by_cases hws : isJsWs c = true
    · rw [if_pos hws]
      cases b with
      | true => rw [if_pos rfl]; exact ih true
      | false =>
        rw [if_neg (by simp)]
        rw [List.all_cons, Bool.and_eq_true]
        exact ⟨by decide, ih true⟩
    · rw [if_neg hws]
      have hd : isJsWs c = false := by simpa using hws
      rw [List.all_cons, Bool.and_eq_true]
      exact ⟨by simp [hd], ih false⟩

theorem collapseWsAux_noAdj (l : List Char) :
    ∀ b, noAdjWs (collapseWsAux b l) = true ∧
      (b = true → ∀ c, (collapseWsAux b l).head? = some c →
        isJsWs c = false) := by
  induction l with
  | nil =>
    intro b
    exact ⟨rfl, fun _ c hc => by simp [collapseWsAux] at hc⟩
  | cons c rest ih =>
    intro b
    rw [collapseWsAux_cons]
    by_cases hws : isJsWs c = true
    · rw [if_pos hws]
      cases b with
      | true => rw [if_pos rfl]; exact ih true
      | false =>
        rw [if_neg (by simp)]
        refine ⟨?_, fun h => absurd h (by simp)⟩
        cases hout : collapseWsAux true rest with
        | nil => rfl
        | cons d r2 =>
          have hd : isJsWs d = false :=
            (ih true).2 rfl d (by rw [hout]; rfl)
          have hno : noAdjWs (d :: r2) = true := by
            rw [← hout]; exact (ih true).1
          rw [noAdjWs_cons2, Bool.and_eq_true]
          exact ⟨by simp [hd], hno⟩
    · rw [if_neg hws]
      have hd : isJsWs c = false := by simpa using hws
      refine ⟨?_, fun _ c' hc' => ?_⟩
      · cases hout : collapseWsAux false rest with
        | nil => rfl
        | cons d r2 =>
          have hno : noAdjWs (d :: r2) = true := by
            rw [← hout]; exact (ih false).1
          rw [noAdjWs_cons2, Bool.and_eq_true]
          exact ⟨by simp [hd], hno⟩
      · simp only [List.head?_cons, Option.some.injEq] at hc'
        subst hc'; exact hd

theorem jsTrim_getLast_not_ws (l : List Char) (c : Char)
    (h : (jsTrim l).getLast? = some c) : isJsWs c = false := by
  unfold jsTrim at h
  rw [List.getLast?_reverse] at h
  exact head?_dropWhile_false isJsWs _ c h

/-- `textClean` always produces a text in normalized form. -/
theorem textClean_normalized (t : List Char) :
    normalizedText (textClean t) = true := by
  have hall : (textClean t).all (fun c => !isJsWs c || c = ' ') = true := by
    have hsub : List.Sublist (textClean t) (collapseWs t) := by
      unfold textClean jsTrim
      have h2 : List.Sublist
          (((collapseWs t).dropWhile isJsWs).reverse.dropWhile isJsWs)
          ((collapseWs t).dropWhile isJsWs).reverse :=
        (List.dropWhile_suffix isJsWs).sublist
      have h3 := h2.reverse
      rw [List.reverse_reverse] at h3
      exact h3.trans (List.dropWhile_suffix isJsWs).sublist
    rw [List.all_eq_true]
    intro x hx
    exact (List.all_eq_true.mp (collapseWsAux_all_space t false)) x
      (hsub.subset hx)
  have hchain : (textClean t).Chain' notBothWs := by
    have h0 : (collapseWs t).Chain' notBothWs :=
      (noAdjWs_iff_chain' _).mp (collapseWsAux_noAdj t false).1
    have h1 : ((collapseWs t).dropWhile isJsWs).Chain' notBothWs :=
      h0.suffix (List.dropWhile_suffix isJsWs)
    have h1r : (((collapseWs t).dropWhile isJsWs).reverse).Chain' notBothWs := by
      rw [List.chain'_reverse]
      exact List.Chain'.imp (fun a b hab hc => hab ⟨hc.2, hc.1⟩) h1
    have h2 : ((((collapseWs t).dropWhile isJsWs).reverse).dropWhile
        isJsWs).Chain' notBothWs :=
      h1r.suffix (List.dropWhile_suffix isJsWs)
    unfold textClean jsTrim
    rw [List.chain'_reverse]
    exact List.Chain'.imp (fun a b hab hc => hab ⟨hc.2, hc.1⟩) h2
  unfold normalizedText
  rw [Bool.and_eq_true, Bool.and_eq_true, Bool.and_eq_true]
  refine ⟨⟨⟨hall, (noAdjWs_iff_chain' _).mpr hchain⟩, ?_⟩, ?_⟩
  · cases hh : (textClean t).head? with
    | none => rfl
    | some c =>
      have hh' : (jsTrim (collapseWs t)).head? = some c := hh
      simp [jsTrim_head_not_ws (collapseWs t) c hh']
  · cases hh : (textClean t).getLast? with
    | none => rfl
    | some c =>
      have hh' : (jsTrim (collapseWs t)).getLast? = some c := hh
      simp [jsTrim_getLast_not_ws (collapseWs t) c hh']

theorem dropWhile_eq_self_of_head (p : Char → Bool) (l : List Char)
    (h : ∀ c, l.head? = some c → p c = false) : l.dropWhile p = l := by
  cases l with
  | nil => rfl
  | cons c rest =>
    have := h c rfl
    simp [List.dropWhile_cons, this]

theorem jsTrim_eq_self (l : List Char)
    (hhead : ∀ c, l.head? = some c → isJsWs c = false)
    (hlast : ∀ c, l.getLast? = some c → isJsWs c = false) :
    jsTrim l = l := by
  unfold jsTrim
  rw [dropWhile_eq_self_of_head isJsWs l hhead]
  rw [dropWhile_eq_self_of_head isJsWs l.reverse
    (fun c hc => hlast c (by rwa [List.head?_reverse] at hc))]
  exact List.reverse_reverse l

theorem collapseWsAux_true_of_head (l : List Char)
    (h : ∀ c, l.head? = some c → isJsWs c = false) :
    collapseWsAux true l = collapseWsAux false l := by
  cases l with
  | nil => rfl
  | cons c rest =>
    have := h c rfl
    rw [collapseWsAux_cons, collapseWsAux_cons, if_neg (by simp [this]),
      if_neg (by simp [this])]

theorem collapseWsAux_false_eq_self (l : List Char) :
    l.all (fun c => !isJsWs c || c = ' ') = true → noAdjWs l = true →
    collapseWsAux false l = l := by
  induction l with
  | nil => intro _ _; rfl
  | cons c rest ih =>
    intro hall hno
    rw [List.all_cons, Bool.and_eq_true] at hall
    have hrestno : noAdjWs rest = true := by
      cases rest with
      | nil => rfl
      | cons d r2 =>
        rw [noAdjWs_cons2, Bool.and_eq_true] at hno
        exact hno.2
    rw [collapseWsAux_cons]
    by_cases hws : isJsWs c = true
    · have hcsp : c = ' ' := by
        have := hall.1
        rw [hws] at this
        simpa using this
      have hhead : ∀ d, rest.head? = some d → isJsWs d = false := by
        intro d hd
        cases rest with
        | nil => simp at hd
        | cons d0 r2 =>
          simp only [List.head?_cons, Option.some.injEq] at hd
          subst hd
          rw [noAdjWs_cons2, Bool.and_eq_true] at hno
          have := hno.1
          rw [hws] at this
          simpa using this
      rw [if_pos hws, if_neg (by simp),
        collapseWsAux_true_of_head rest hhead, ih hall.2 hrestno, hcsp]
    · rw [if_neg hws, ih hall.2 hrestno]

theorem collapseWs_eq_self (l : List Char)
    (hall : l.all (fun c => !isJsWs c || c = ' ') = true)
    (hno : noAdjWs l = true) : collapseWs l = l :=
  collapseWsAux_false_eq_self l hall hno

/-- Normalized texts pass through `textClean` unchanged. -/
theorem textClean_eq_self (t : List Char) (h : normalizedText t = true) :
    textClean t = t := by
  unfold normalizedText at h
  rw [Bool.and_eq_true, Bool.and_eq_true, Bool.and_eq_true] at h
  obtain ⟨⟨⟨hall, hno⟩, hhead⟩, hlast⟩ := h
  unfold textClean
  rw [collapseWs_eq_self t hall hno]
  apply jsTrim_eq_self
  · intro c hc
    rw [hc] at hhead
    simpa using hhead
  · intro c hc
    rw [hc] at hlast
    simpa using hlast

/-- C9 (amended): the stored release-date text is the whitespace-normalized
source text — `textClean` applied to the `dd` node text — independent of
whether the structured date parses; `parseReleaseDate` returns its cleaned
input as `raw` on every branch; and a source text already in normalized
form (in particular one without whitespace runs) is retained unchanged. -/
theorem releaseDateText_normalized :
    (∀ t, (parseReleaseDate t).raw = textClean t)
    ∧ (∀ t, normalizedText (textClean t) = true)
    ∧ (∀ t, normalizedText t = true →
        storedReleaseDateText t = if t = [] then none else some t) := by
  refine ⟨fun t => ?_, textClean_normalized, fun t ht => ?_⟩
  · unfold parseReleaseDate
    cases hm : dateMatchOf (textClean t) with
    | none => simp [hm]
    | some p =>
      obtain ⟨y, mo, dayOpt⟩ := p
      simp only [hm]
      cases dayOpt <;> split_ifs <;> simp <;> split_ifs <;> rfl
  · unfold storedReleaseDateText
    rw [textClean_eq_self t ht]

/-- Witness for `releaseDateText_normalized` at the already-normalized text
`"2024年2月30日"` (whose structured date does not parse). -/
theorem releaseDateText_normalized_witness :
    storedReleaseDateText ("2024年2月30日".toList) =
      if ("2024年2月30日".toList) = ([] : List Char) then none
      else some ("2024年2月30日".toList) :=
  releaseDateText_normalized.2.2 ("2024年2月30日".toList) (by decide)

/-! ## C2 — redirect-overflow stop -/

theorem walkFrom_succ (server : Nat → ScrapeResult)
    (fuel page fetched : Nat) (acc : List Item) :
    walkFrom server (fuel + 1) page fetched acc =
      (if (server page).items = [] then
        WalkResult.stopped StopReason.emptyPage (fetched + 1) acc
      else if (match (server page).finalPageParam with
               | some e => e != (page : Int)
               | none => false) then
        WalkResult.stopped StopReason.redirect (fetched + 1) acc
      else walkFrom server fuel (page + 1) (fetched + 1)
        (acc ++ (server page).items)) := rfl

theorem pageSpan_succ (server : Nat → ScrapeResult) (first k : Nat) :
    pageSpan server first (k + 1) =
      (server first).items ++ pageSpan server (first + 1) k := by
  unfold pageSpan
  rw [List.range'_succ, List.flatMap_cons]

/-- Processing `k` good pages (non-empty, correctly echoed) advances the
walker by `k` pages, appending their items to the upsert log. -/
theorem walkFrom_advance (server : Nat → ScrapeResult) (k : Nat) :
    ∀ (fuel page fetched : Nat) (acc : List Item),
      (∀ p, page ≤ p → p < page + k →
        (server p).items ≠ [] ∧
        ((server p).finalPageParam = none ∨
          (server p).finalPageParam = some (p : Int))) →
      walkFrom server (k + fuel) page fetched acc =
        walkFrom server fuel (page + k) (fetched + k)
          (acc ++ pageSpan server page k) := by
  induction k with
  | zero =>
    intro fuel page fetched acc _
    simp [pageSpan]
  | succ k ih =>
    intro fuel page fetched acc hgood
    have hpage := hgood page (le_refl page) (by omega)
    rw [show k + 1 + fuel = (k + fuel) + 1 from by omega, walkFrom_succ,
      if_neg hpage.1]
    have hecho : (match (server page).finalPageParam with
        | some e => e != (page : Int)
        | none => false) = false := by
      rcases hpage.2 with h | h <;> rw [h] <;> simp
    rw [hecho, if_neg (by simp)]
    rw [ih fuel (page + 1) (fetched + 1) (acc ++ (server page).items)
      (fun p h1 h2 => hgood p (by omega) (by omega))]
    rw [show page + 1 + k = page + (k + 1) from by omega,
      show fetched + 1 + k = fetched + (k + 1) from by omega,
      pageSpan_succ, List.append_assoc]

/-- C2: when pages `1 … N-1` are non-empty and echoed faithfully, and the
response for page `N` echoes a page parameter `e ≠ N`, the walker stops at
page `N` with reason `redirect`, having fetched exactly `N` pages and
upserted exactly the items of pages `1 … N-1` — none of page `N`'s items. -/
theorem walker_redirect_stop (server : Nat → ScrapeResult)
    (N fuel : Nat) (e : Int)
    (hN : 1 ≤ N) (hfuel : N ≤ fuel)
    (hgood : ∀ p, 1 ≤ p → p < N →
      (server p).items ≠ [] ∧
      ((server p).finalPageParam = none ∨
        (server p).finalPageParam = some (p : Int)))
    (hitems : (server N).items ≠ [])
    (hecho : (server N).finalPageParam = some e) (hne : e ≠ (N : Int)) :
    walk server fuel =
      WalkResult.stopped StopReason.redirect N (pageSpan server 1 (N - 1)) := by
  unfold walk
  obtain ⟨rest, hrest⟩ : ∃ rest, fuel = (N - 1) + (rest + 1) :=
    ⟨fuel - N, by omega⟩
  rw [hrest, walkFrom_advance server (N - 1) (rest + 1) 1 0 []
    (fun p h1 h2 => hgood p h1 (by omega))]
  rw [show 1 + (N - 1) = N from by omega, List.nil_append, walkFrom_succ,
    if_neg hitems, hecho]
  rw [if_pos (by simpa using hne)]
  rw [show 0 + (N - 1) + 1 = N from by omega]

/-- Witness for `walker_redirect_stop`: a concrete server clamping page 3
back to page 2, run with fuel 5. -/
theorem walker_redirect_stop_witness :
    walk (fun p => if p = 3 then ⟨[dummyItem], some 2⟩
                   else ⟨[dummyItem], some (p : Int)⟩) 5 =
      WalkResult.stopped StopReason.redirect 3
        (pageSpan (fun p => if p = 3 then ⟨[dummyItem], some 2⟩
                            else ⟨[dummyItem], some (p : Int)⟩) 1 (3 - 1)) :=
  walker_redirect_stop _ 3 5 2 (by omega) (by omega)
    (fun p _ h2 => by
      have hp : ¬ p = 3 := by omega
      simp [hp])
    (by simp) (by rfl) (by decide)

/-! ## C1 — page caps -/

/-- On a server that always answers with a non-empty, correctly echoed
page, the walker of src/populate_db.ts never reaches a stop condition: it
consumes all its fuel, one page fetch per unit. -/
theorem walkFrom_alwaysFull (fuel : Nat) :
    ∀ (page fetched : Nat) (acc : List Item),
      walkFrom alwaysFullServer fuel page fetched acc =
        WalkResult.outOfFuel (fetched + fuel)
          (acc ++ List.replicate fuel dummyItem) := by
  induction fuel with
  | zero =>
    intro page fetched acc
    simp [walkFrom]
  | succ fuel ih =>
    intro page fetched acc
    rw [walkFrom_succ, if_neg (by simp [alwaysFullServer]),
      show (match (alwaysFullServer page).finalPageParam with
            | some e => e != (page : Int)
            | none => false) = false from by simp [alwaysFullServer],
      if_neg (by simp)]
    rw [ih (page + 1) (fetched + 1) (acc ++ (alwaysFullServer page).items)]
    rw [show fetched + 1 + fuel = fetched + (fuel + 1) from by omega]
    show WalkResult.outOfFuel _ ((acc ++ [dummyItem]) ++ _) = _
    rw [List.append_assoc, List.singleton_append, ← List.replicate_succ]

/-- C1 counterexample: after 300 iterations against an always-full,
never-redirecting server the walker has fetched 300 pages — more than the
generic crawler's default 250-page cap — and still has not stopped: the
pagination walker has no maximum page count. -/
theorem walker_no_page_cap_counterexample :
    (walk alwaysFullServer 300).isStopped = false
    ∧ defaultCrawlerMaxPages < (walk alwaysFullServer 300).pagesFetched := by
  unfold walk
  rw [walkFrom_alwaysFull 300 1 0 []]
  exact ⟨rfl, by norm_num [defaultCrawlerMaxPages, WalkResult.pagesFetched]⟩

theorem crawlLoop_cons (fetch : List Char → Option (List (List Char)))
    (maxPages fuel : Nat) (url : List Char) (rest seen : List (List Char)) :
    crawlLoop fetch maxPages (fuel + 1) (url :: rest) seen =
      (if seen.length < maxPages then
        if url ∈ seen then crawlLoop fetch maxPages fuel rest seen
        else
          match fetch url with
          | none => crawlLoop fetch maxPages fuel rest (seen ++ [url])
          | some links =>
            crawlLoop fetch maxPages fuel
              (rest ++ links.filter (fun n => n ∉ seen ++ [url]))
              (seen ++ [url])
      else seen) := rfl

/-- The generic crawler's visited set never exceeds `maxPages`: a URL is
added only while `seen.size < maxPages` holds. -/
theorem crawlLoop_visited_le (fetch : List Char → Option (List (List Char)))
    (maxPages : Nat) :
    ∀ (fuel : Nat) (q seen : List (List Char)),
      seen.length ≤ maxPages →
      (crawlLoop fetch maxPages fuel q seen).length ≤ maxPages := by
  intro fuel
  induction fuel with
  | zero => intro q seen h; exact h
  | succ fuel ih =>
    intro q seen h
    cases q with
    | nil => exact h
    | cons url rest =>
      rw [crawlLoop_cons]
      by_cases hlt : seen.length < maxPages
      · rw [if_pos hlt]
        by_cases hmem : url ∈ seen
        · rw [if_pos hmem]
          exact ih rest seen h
        · rw [if_neg hmem]
          cases fetch url with
          | none => exact ih rest (seen ++ [url]) (by simp; omega)
          | some links => exact ih _ (seen ++ [url]) (by simp; omega)
      · rw [if_neg hlt]
        exact h

/-- C1 (amended): only the generic `Crawler.crawl` has a page cap — its
visited count never exceeds `maxPages` — while the pagination walker of the
populate script has no maximum page count: against a server that always
returns a non-empty, non-redirected page it runs forever, fetching one page
per fuel unit without ever reaching a stop condition. -/
theorem crawler_capped_walker_uncapped :
    (∀ (fetch : List Char → Option (List (List Char)))
        (maxPages fuel : Nat) (q seen : List (List Char)),
      seen.length ≤ maxPages →
      (crawlLoop fetch maxPages fuel q seen).length ≤ maxPages)
    ∧ (∀ fuel, walk alwaysFullServer fuel =
        WalkResult.outOfFuel fuel (List.replicate fuel dummyItem)) :=
  ⟨fun fetch maxPages fuel q seen h =>
      crawlLoop_visited_le fetch maxPages fuel q seen h,
   fun fuel => by
      unfold walk
      rw [walkFrom_alwaysFull fuel 1 0 []]
      simp⟩

/-- Witness for `crawler_capped_walker_uncapped`: a concrete two-page cap
honoured on a concrete queue. -/
theorem crawler_capped_walker_uncapped_witness :
    (crawlLoop (fun _ => some ["x".toList]) 2 10
      ["u".toList, "v".toList, "w".toList] []).length ≤ 2 :=
  crawler_capped_walker_uncapped.1 _ 2 10 _ [] (by decide)

/-! ## C5 — idempotent upsert -/

theorem updIf_preserves_id (n : Nat) (it : Item) (r : DbRow) :
    (if r.manual_id = it.manualId then applyUpdate n it r else r).manual_id =
      r.manual_id := by
  split_ifs with h
  · simp [applyUpdate]
  · rfl

theorem applyUpdate_manual_id (n : Nat) (it : Item) (r : DbRow) :
    (applyUpdate n it r).manual_id = r.manual_id := rfl

theorem applyUpdate_pdf_local_path (n : Nat) (it : Item) (r : DbRow) :
    (applyUpdate n it r).pdf_local_path = r.pdf_local_path := rfl

theorem find?_map_updIf (n : Nat) (it : Item) (l : List DbRow) :
    List.find? (fun r => decide (r.manual_id = it.manualId))
      (l.map (fun r =>
        if r.manual_id = it.manualId then applyUpdate n it r else r)) =
    (List.find? (fun r => decide (r.manual_id = it.manualId)) l).map
      (fun r => if r.manual_id = it.manualId then applyUpdate n it r else r) := by
  induction l with
  | nil => rfl
  | cons r rest ih =>
    rw [List.map_cons, List.find?_cons, List.find?_cons]
    have hid : decide ((if r.manual_id = it.manualId then applyUpdate n it r
        else r).manual_id = it.manualId) =
        decide (r.manual_id = it.manualId) := by
      rw [updIf_preserves_id]
    rw [hid]
    cases hd : decide (r.manual_id = it.manualId) with
    | true => simp
    | false => simpa using ih

theorem any_map_updIf (n : Nat) (it : Item) (l : List DbRow)
    (p : DbRow → Bool) (hp : ∀ r, p (if r.manual_id = it.manualId then
      applyUpdate n it r else r) = p r) :
    (l.map (fun r =>
      if r.manual_id = it.manualId then applyUpdate n it r else r)).any p =
      l.any p := by
  induction l with
  | nil => rfl
  | cons r rest ih =>
    rw [List.map_cons, List.any_cons, List.any_cons, hp r, ih]

theorem filter_length_map_updIf (n : Nat) (it : Item) (l : List DbRow) :
    ((l.map (fun r =>
        if r.manual_id = it.manualId then applyUpdate n it r else r)).filter
      (fun r => decide (r.manual_id = it.manualId))).length =
    (l.filter (fun r => decide (r.manual_id = it.manualId))).length := by
  rw [List.filter_map, List.length_map]
  congr 1
  apply List.filter_congr
  intro r _
  show decide ((if r.manual_id = it.manualId then applyUpdate n it r
      else r).manual_id = it.manualId) = decide (r.manual_id = it.manualId)
  rw [updIf_preserves_id]

theorem count_one_of_nodup (db : List DbRow) (id : Nat)
    (hpk : (db.map (fun r => r.manual_id)).Nodup)
    (hany : db.any (fun r => decide (r.manual_id = id)) = true) :
    (db.filter (fun r => decide (r.manual_id = id))).length = 1 := by
  induction db with
  | nil => simp at hany
  | cons r rest ih =>
    rw [List.map_cons, List.nodup_cons] at hpk
    by_cases h : r.manual_id = id
    · rw [List.filter_cons, if_pos (by simpa using h)]
      have hempty : rest.filter (fun r => decide (r.manual_id = id)) = [] := by
        rw [List.filter_eq_nil_iff]
        intro a ha hpa
        apply hpk.1
        rw [List.mem_map]
        refine ⟨a, ha, ?_⟩
        have : a.manual_id = id := by simpa using hpa
        rw [this, h]
      rw [hempty]
      rfl
    · rw [List.filter_cons, if_neg (by simpa using h)]
      rw [List.any_cons] at hany
      have : rest.any (fun r => decide (r.manual_id = id)) = true := by
        rcases Bool.or_eq_true_iff.mp hany with hcase | hcase
        · exact absurd (of_decide_eq_true hcase) h
        · exact hcase
      exact ih hpk.2 this

/-- C5: upserting the same item twice (keyed on `manual_id`) raises no
error and leaves exactly one row for that id; the second upsert overwrites
the mutable columns from the item and refreshes `updated_at`, and it never
changes `pdf_local_path`; the store's size is unchanged. -/
theorem upsertItem_idempotent (db : List DbRow) (it : Item) (n1 n2 : Nat)
    (db1 : List DbRow)
    (hpk : (db.map (fun r => r.manual_id)).Nodup)
    (h1 : upsertItem n1 db it = .ok db1) :
    ∃ db2 r1 r2,
      upsertItem n2 db1 it = .ok db2
      ∧ findId db1 it.manualId = some r1
      ∧ findId db2 it.manualId = some r2
      ∧ r2 = applyUpdate n2 it r1
      ∧ r2.pdf_local_path = r1.pdf_local_path
      ∧ countId db1 it.manualId = 1
      ∧ countId db2 it.manualId = 1
      ∧ db2.length = db1.length := by
  unfold upsertItem at h1
  by_cases hex : db.any (fun r => decide (r.manual_id = it.manualId)) = true
  · -- first call took the UPDATE branch
    rw [if_pos hex] at h1
    by_cases hclash : db.any (fun r =>
        decide (r.manual_id ≠ it.manualId ∧ r.pdf_url = some it.pdfUrl)) = true
    · rw [if_pos hclash] at h1
      exact absurd h1 (by simp)
    · rw [if_neg hclash] at h1
      simp only [Except.ok.injEq] at h1
      subst h1
      -- the updated row
      cases hf0 : List.find? (fun r => decide (r.manual_id = it.manualId)) db with
      | none =>
        rw [List.find?_eq_none] at hf0
        rw [List.any_eq_true] at hex
        obtain ⟨r, hr, hpr⟩ := hex
        exact absurd hpr (by simpa using hf0 r hr)
      | some r0 =>
        have hps := List.find?_some hf0
        have hpid0 : r0.manual_id = it.manualId := of_decide_eq_true hps
        have hany1 : (db.map (fun r =>
            if r.manual_id = it.manualId then applyUpdate n1 it r else r)).any
            (fun r => decide (r.manual_id = it.manualId)) = true := by
          rw [any_map_updIf n1 it db _ (fun r => by rw [updIf_preserves_id])]
          exact hex
        have hclash1 : ¬ (db.map (fun r =>
            if r.manual_id = it.manualId then applyUpdate n1 it r else r)).any
            (fun r => decide (r.manual_id ≠ it.manualId ∧
              r.pdf_url = some it.pdfUrl)) = true := by
          intro hc
          rw [List.any_eq_true] at hc
          obtain ⟨r', hmem, hp'⟩ := hc
          rw [List.mem_map] at hmem
          obtain ⟨r, hr, hrr⟩ := hmem
          have hp2 := of_decide_eq_true hp'
          apply hclash
          rw [List.any_eq_true]
          refine ⟨r, hr, decide_eq_true ?_⟩
          by_cases hid : r.manual_id = it.manualId
          · exfalso
            apply hp2.1
            rw [← hrr, updIf_preserves_id, hid]
          · rw [if_neg hid] at hrr
            subst hrr
            exact hp2
        refine ⟨(db.map (fun r => if r.manual_id = it.manualId then
            applyUpdate n1 it r else r)).map (fun r =>
            if r.manual_id = it.manualId then applyUpdate n2 it r else r),
          applyUpdate n1 it r0, applyUpdate n2 it (applyUpdate n1 it r0),
          ?_, ?_, ?_, rfl, applyUpdate_pdf_local_path _ _ _, ?_, ?_, ?_⟩
        · unfold upsertItem
          rw [if_pos hany1, if_neg hclash1]
        · unfold findId
          rw [find?_map_updIf, hf0]
          simp [hpid0]
        · unfold findId
          rw [find?_map_updIf, find?_map_updIf, hf0]
          simp [hpid0, applyUpdate_manual_id]
        · unfold countId
          rw [filter_length_map_updIf]
          exact count_one_of_nodup db it.manualId hpk hex
        · unfold countId
          rw [filter_length_map_updIf, filter_length_map_updIf]
          exact count_one_of_nodup db it.manualId hpk hex
        · rw [List.length_map]
  · -- first call took the INSERT branch
    rw [if_neg hex] at h1
    by_cases hclash : db.any (fun r =>
        decide (r.pdf_url = some it.pdfUrl)) = true
    · rw [if_pos hclash] at h1
      exact absurd h1 (by simp)
    · rw [if_neg hclash] at h1
      simp only [Except.ok.injEq] at h1
      subst h1
      have hnone : List.find? (fun r =>
          decide (r.manual_id = it.manualId)) db = none := by
        rw [List.find?_eq_none]
        intro r hr hp
        exact hex (List.any_eq_true.mpr ⟨r, hr, hp⟩)
      have hfind1 : findId (db ++ [rowOfItem n1 it]) it.manualId =
          some (rowOfItem n1 it) := by
        unfold findId
        rw [List.find?_append, hnone]
        simp [rowOfItem]
      have hany1 : (db ++ [rowOfItem n1 it]).any
          (fun r => decide (r.manual_id = it.manualId)) = true := by
        rw [List.any_append]
        simp [rowOfItem]
      have hclash1 : ¬ (db ++ [rowOfItem n1 it]).any (fun r =>
          decide (r.manual_id ≠ it.manualId ∧
            r.pdf_url = some it.pdfUrl)) = true := by
        intro hc
        rw [List.any_append, Bool.or_eq_true_iff] at hc
        rcases hc with hc | hc
        · rw [List.any_eq_true] at hc
          obtain ⟨r, hr, hp⟩ := hc
          apply hclash
          rw [List.any_eq_true]
          exact ⟨r, hr, decide_eq_true (of_decide_eq_true hp).2⟩
        · simp [rowOfItem] at hc
      have hmapself : ∀ (n : Nat), db.map (fun r =>
          if r.manual_id = it.manualId then applyUpdate n it r else r) = db := by
        intro n
        have := List.map_congr_left (l := db)
          (f := fun r => if r.manual_id = it.manualId then applyUpdate n it r
            else r) (g := id) (fun r hr => by
          have hnid : ¬ r.manual_id = it.manualId := by
            intro hid
            exact hex (List.any_eq_true.mpr ⟨r, hr, decide_eq_true hid⟩)
          show (if r.manual_id = it.manualId then applyUpdate n it r else r) =
            id r
          rw [if_neg hnid]
          rfl)
        rw [this, List.map_id]
      have hfempty : db.filter (fun r =>
          decide (r.manual_id = it.manualId)) = [] := by
        rw [List.filter_eq_nil_iff]
        intro r hr hp
        exact hex (List.any_eq_true.mpr ⟨r, hr, hp⟩)
      refine ⟨(db ++ [rowOfItem n1 it]).map (fun r =>
          if r.manual_id = it.manualId then applyUpdate n2 it r else r),
        rowOfItem n1 it, applyUpdate n2 it (rowOfItem n1 it),
        ?_, hfind1, ?_, rfl, applyUpdate_pdf_local_path _ _ _, ?_, ?_, ?_⟩
      · unfold upsertItem
        rw [if_pos hany1, if_neg hclash1]
      · unfold findId
        rw [List.map_append, hmapself n2, List.find?_append, hnone]
        simp [List.find?_cons, rowOfItem, applyUpdate]
      · unfold countId
        rw [List.filter_append, hfempty]
        simp [rowOfItem]
      · unfold countId
        rw [List.map_append, hmapself n2, List.filter_append, hfempty]
        simp only [List.map_cons, List.map_nil, List.nil_append]
        rw [show (if (rowOfItem n1 it).manual_id = it.manualId then
            applyUpdate n2 it (rowOfItem n1 it) else rowOfItem n1 it) =
            applyUpdate n2 it (rowOfItem n1 it) from if_pos rfl]
        simp [applyUpdate, rowOfItem]
      · rw [List.length_map]

/-- Witness for `upsertItem_idempotent`: a concrete item upserted twice into
an empty store. -/
theorem upsertItem_idempotent_witness :
    ∃ db2 r1 r2,
      upsertItem 1
        ((upsertItem 0 []
          ⟨7, "d".toList, "du".toList, "pu".toList, none, some ("n".toList),
            some ("MG".toList), none, none, none⟩).toOption.getD [])
        ⟨7, "d".toList, "du".toList, "pu".toList, none, some ("n".toList),
          some ("MG".toList), none, none, none⟩ = .ok db2
      ∧ findId ((upsertItem 0 []
          ⟨7, "d".toList, "du".toList, "pu".toList, none, some ("n".toList),
            some ("MG".toList), none, none, none⟩).toOption.getD []) 7 = some r1
      ∧ findId db2 7 = some r2
      ∧ r2 = applyUpdate 1
          ⟨7, "d".toList, "du".toList, "pu".toList, none, some ("n".toList),
            some ("MG".toList), none, none, none⟩ r1
      ∧ r2.pdf_local_path = r1.pdf_local_path
      ∧ countId ((upsertItem 0 []
          ⟨7, "d".toList, "du".toList, "pu".toList, none, some ("n".toList),
            some ("MG".toList), none, none, none⟩).toOption.getD []) 7 = 1
      ∧ countId db2 7 = 1
      ∧ db2.length = ((upsertItem 0 []
          ⟨7, "d".toList, "du".toList, "pu".toList, none, some ("n".toList),
            some ("MG".toList), none, none, none⟩).toOption.getD []).length :=
  upsertItem_idempotent [] _ 0 1 _ (by decide) (by rfl)

/-! ## C6 — download-failure isolation -/

theorem runBatch_cons (cfg : DlCfg) (net : List Char → Bool)
    (fs : List (List (List Char))) (r : DRow) (rest : List DRow) :
    runBatch cfg net fs (r :: rest) =
      (((downloadRow cfg net fs r).1, (downloadRow cfg net fs r).2.1) ::
          (runBatch cfg net (downloadRow cfg net fs r).2.2 rest).1,
        (runBatch cfg net (downloadRow cfg net fs r).2.2 rest).2) := rfl

/-- A record with no stored path and no pre-existing expected file goes
straight to the network; a failing fetch reports `false` and persists
nothing, a succeeding one persists the root-relative expected path. -/
theorem downloadRow_nopath_fresh (cfg : DlCfg) (net : List Char → Bool)
    (fs : List (List (List Char))) (r : DRow)
    (hnp : r.pdf_local_path = none) (hout : expectedOutSegs cfg r ∉ fs) :
    downloadRow cfg net fs r =
      if net r.pdf_url then
        (true, [DlEffect.netFetch r.pdf_url,
          DlEffect.setPath r.manual_id
            (relString cfg.root (expectedOutSegs cfg r))],
          fs ++ [expectedOutSegs cfg r])
      else (false, [DlEffect.netFetch r.pdf_url], fs) := by
  unfold downloadRow
  simp only [hnp]
  rw [if_neg (by simp)]
  unfold downloadRowFresh
  rw [if_neg hout]

/-- C6: in a batch of records that all need a fresh download (no stored
path, expected file absent, pairwise-distinct targets), every scheduled task
runs: a task whose fetch fails reports failure with no `setPath` effect,
and every task whose fetch succeeds persists its own root-relative path —
one result per row, independent of any failures among them. -/
theorem download_failure_isolated (cfg : DlCfg) (net : List Char → Bool)
    (fs : List (List (List Char))) (rows : List DRow)
    (hnopath : ∀ r ∈ rows, r.pdf_local_path = none)
    (hfresh : ∀ r ∈ rows, expectedOutSegs cfg r ∉ fs)
    (hdis : rows.Pairwise (fun a b =>
      expectedOutSegs cfg a ≠ expectedOutSegs cfg b)) :
    (runBatch cfg net fs rows).1 = rows.map (fun r =>
      if net r.pdf_url then
        (true, [DlEffect.netFetch r.pdf_url,
          DlEffect.setPath r.manual_id
            (relString cfg.root (expectedOutSegs cfg r))])
      else (false, [DlEffect.netFetch r.pdf_url])) := by
  induction rows generalizing fs with
  | nil => rfl
  | cons r rest ih =>
    rw [List.pairwise_cons] at hdis
    have hstep := downloadRow_nopath_fresh cfg net fs r
      (hnopath r (by simp)) (hfresh r (by simp))
    rw [runBatch_cons, List.map_cons, hstep]
    cases hnet : net r.pdf_url with
    | true =>
      rw [if_pos rfl]
      have hrest := ih (fs ++ [expectedOutSegs cfg r])
        (fun x hx => hnopath x (by simp [hx]))
        (fun x hx => by
          simp only [List.mem_append, List.mem_singleton]
          rintro (hmem | hmem)
          · exact hfresh x (by simp [hx]) hmem
          · exact hdis.1 x hx hmem.symm)
        hdis.2
      rw [hrest]
      simp
    | false =>
      rw [if_neg (by simp)]
      have hrest := ih fs
        (fun x hx => hnopath x (by simp [hx]))
        (fun x hx => hfresh x (by simp [hx]))
        hdis.2
      rw [hrest]
      simp

/-- Witness for `download_failure_isolated`: five fresh tasks of which the
third fails; the other four persist their own paths. -/
theorem download_failure_isolated_witness :
    (runBatch ⟨["a".toList], ["d".toList, "f".toList], ["m".toList]⟩
      (fun u => u ≠ "u3".toList) []
      [⟨1, some ("a1".toList), none, "u1".toList, none⟩,
       ⟨2, some ("a2".toList), none, "u2".toList, none⟩,
       ⟨3, some ("a3".toList), none, "u3".toList, none⟩,
       ⟨4, some ("a4".toList), none, "u4".toList, none⟩,
       ⟨5, some ("a5".toList), none, "u5".toList, none⟩]).1 =
    List.map (fun r =>
      if (fun u => u ≠ "u3".toList) r.pdf_url then
        (true, [DlEffect.netFetch r.pdf_url,
          DlEffect.setPath r.manual_id
            (relString ["d".toList, "f".toList]
              (expectedOutSegs
                ⟨["a".toList], ["d".toList, "f".toList], ["m".toList]⟩ r))])
      else (false, [DlEffect.netFetch r.pdf_url]))
      [⟨1, some ("a1".toList), none, "u1".toList, none⟩,
       ⟨2, some ("a2".toList), none, "u2".toList, none⟩,
       ⟨3, some ("a3".toList), none, "u3".toList, none⟩,
       ⟨4, some ("a4".toList), none, "u4".toList, none⟩,
       ⟨5, some ("a5".toList), none, "u5".toList, none⟩] :=
  download_failure_isolated _ _ _ _ (by decide) (by decide) (by decide)

/-! ## C7 — stored-path handling -/

/-- C7 counterexample: a record whose stored `pdf_local_path` is a legacy
*absolute* path inside the storage root, whose file exists.  Under the
claim's reading of "resolve relative to the storage root" (prepending the
root, `specRootResolve`) the stored path does not resolve to an existing
file, its legacy-absolute interpretation does exist and lies inside the
root, so the claim requires a rewrite to the root-relative `"m/5-x.pdf"` —
but the code performs no `setPath` at all: `path.resolve(root, dbPath)`
returns the absolute `dbPath` itself, the first existence check fires and
the record is skipped unchanged. -/
theorem download_legacy_absolute_counterexample :
    specRootResolve ["d".toList, "f".toList] ("/d/f/m/5-x.pdf".toList) ∉
      [["d".toList, "f".toList, "m".toList, "5-x.pdf".toList]]
    ∧ legacyAbsOf ⟨["a".toList], ["d".toList, "f".toList], ["m".toList]⟩
        ("/d/f/m/5-x.pdf".toList) ∈
      [["d".toList, "f".toList, "m".toList, "5-x.pdf".toList]]
    ∧ ("..".toList).isPrefixOf
        (relString ["d".toList, "f".toList]
          (legacyAbsOf ⟨["a".toList], ["d".toList, "f".toList], ["m".toList]⟩
            ("/d/f/m/5-x.pdf".toList))) = false
    ∧ relString ["d".toList, "f".toList]
        (legacyAbsOf ⟨["a".toList], ["d".toList, "f".toList], ["m".toList]⟩
          ("/d/f/m/5-x.pdf".toList)) = "m/5-x.pdf".toList
    ∧ downloadRow ⟨["a".toList], ["d".toList, "f".toList], ["m".toList]⟩
        (fun _ => true)
        [["d".toList, "f".toList, "m".toList, "5-x.pdf".toList]]
        ⟨5, some ("x".toList), none, "u".toList,
          some ("/d/f/m/5-x.pdf".toList)⟩ =
      (false, [], [["d".toList, "f".toList, "m".toList, "5-x.pdf".toList]]) := by
  decide

/-- C7 (amended): for a non-empty stored `pdf_local_path`, `downloadRow`
first applies `path.resolve(filesRoot(), dbPath)` — which returns an
absolute stored path unchanged — and if that file exists, skips with no
effect (so existing legacy absolute paths are never rewritten).  Only when
that resolution does not exist and the legacy absolute/CWD-relative
interpretation does exist is the self-heal reached: if the path relative to
the root does not start with `".."` the stored path is rewritten to that
root-relative form and no download happens; if it does start with `".."`
(the code's "outside the root" test) the record is left unchanged and no
download happens. -/
theorem downloadRow_stored_path_cases (cfg : DlCfg) (net : List Char → Bool)
    (fs : List (List (List Char))) (r : DRow) (p : List Char)
    (hp : r.pdf_local_path = some p) (hne : p ≠ []) :
    (resolveAbs cfg.root p ∈ fs →
      downloadRow cfg net fs r = (false, [], fs))
    ∧ (resolveAbs cfg.root p ∉ fs → legacyAbsOf cfg p ∈ fs →
        ("..".toList).isPrefixOf (relString cfg.root (legacyAbsOf cfg p)) =
          false →
        downloadRow cfg net fs r =
          (false, [DlEffect.setPath r.manual_id
            (relString cfg.root (legacyAbsOf cfg p))], fs))
    ∧ (resolveAbs cfg.root p ∉ fs → legacyAbsOf cfg p ∈ fs →
        ("..".toList).isPrefixOf (relString cfg.root (legacyAbsOf cfg p)) =
          true →
        downloadRow cfg net fs r = (false, [], fs)) := by
  refine ⟨fun h1 => ?_, fun h1 h2 h3 => ?_, fun h1 h2 h3 => ?_⟩
  · unfold downloadRow
    simp only [hp]
    rw [if_pos hne, if_pos h1]
  · unfold downloadRow
    simp only [hp]
    rw [if_pos hne, if_neg h1, if_pos h2, if_neg (by rw [h3]; simp)]
  · unfold downloadRow
    simp only [hp]
    rw [if_pos hne, if_neg h1, if_pos h2, if_pos h3]

/-- Witness for `downloadRow_stored_path_cases`: a CWD-relative legacy path
whose file exists inside the root is rewritten to `"m/7-y.pdf"` without a
download. -/
theorem downloadRow_stored_path_cases_witness :
    downloadRow ⟨["d".toList], ["d".toList, "f".toList], ["m".toList]⟩
      (fun _ => true)
      [["d".toList, "f".toList, "m".toList, "7-y.pdf".toList]]
      ⟨7, some ("y".toList), none, "u".toList, some ("f/m/7-y.pdf".toList)⟩ =
      (false, [DlEffect.setPath 7
        (relString ["d".toList, "f".toList]
          (legacyAbsOf ⟨["d".toList], ["d".toList, "f".toList], ["m".toList]⟩
            ("f/m/7-y.pdf".toList)))],
        [["d".toList, "f".toList, "m".toList, "7-y.pdf".toList]]) :=
  (downloadRow_stored_path_cases _ _ _ _ _ (by rfl) (by decide)).2.1
    (by decide) (by decide) (by decide)

/-! ## C8 — skip on existing expected file -/

theorem dropCommon_cons (a b : List Char) (as bs : List (List Char)) :
    dropCommon (a :: as) (b :: bs) =
      if a = b then dropCommon as bs else (a :: as, b :: bs) := rfl

theorem dropCommon_append (l t : List (List Char)) :
    dropCommon l (l ++ t) = ([], t) := by
  induction l with
  | nil => rfl
  | cons a as ih =>
    rw [List.cons_append, dropCommon_cons, if_pos rfl, ih]

/-- `path.relative(root, root ++ tail)` is `tail` joined with slashes. -/
theorem relString_append (root tail : List (List Char)) :
    relString root (root ++ tail) = joinWith ['/'] tail := by
  unfold relString
  rw [dropCommon_append]
  rfl

/-- C8: when the computed expected file already exists and the stored
`pdf_local_path` (if any) resolves to no existing file under either
interpretation, `downloadRow` performs no network fetch, leaves the
filesystem unchanged, reports "not downloaded", and persists exactly the
root-relative expected path `{SUBDIR}/{manual_id}-{sanitizedName}.pdf`. -/
theorem download_skip_existing (cfg : DlCfg) (net : List Char → Bool)
    (fs : List (List (List Char))) (r : DRow)
    (hout : expectedOutSegs cfg r ∈ fs)
    (hdb : match r.pdf_local_path with
           | none => True
           | some p => p = [] ∨
               (resolveAbs cfg.root p ∉ fs ∧ legacyAbsOf cfg p ∉ fs)) :
    downloadRow cfg net fs r =
      (false, [DlEffect.setPath r.manual_id
        (relString cfg.root (expectedOutSegs cfg r))], fs)
    ∧ relString cfg.root (expectedOutSegs cfg r) =
        joinWith ['/'] (cfg.subdir ++ [baseNameOf r]) := by
  constructor
  · have hfresh : downloadRowFresh cfg net fs r =
        (false, [DlEffect.setPath r.manual_id
          (relString cfg.root (expectedOutSegs cfg r))], fs) := by
      unfold downloadRowFresh
      rw [if_pos hout]
    unfold downloadRow
    cases hpl : r.pdf_local_path with
    | none => simpa using hfresh
    | some p =>
      simp only [hpl] at hdb
      rcases hdb with hp0 | ⟨ha1, ha2⟩
      · rw [if_neg (by simp [hp0])]
        exact hfresh
      · by_cases hp0 : p = []
        · rw [if_neg (by simp [hp0])]
          exact hfresh
        · rw [if_pos (by simp [hp0]), if_neg ha1, if_neg ha2]
          exact hfresh
  · unfold expectedOutSegs
    rw [List.append_assoc, relString_append]

/-- Witness for `download_skip_existing`: a record with no stored path whose
expected file `/d/f/m/3-n.pdf` already exists is skipped, persisting
`"m/3-n.pdf"`. -/
theorem download_skip_existing_witness :
    downloadRow ⟨["a".toList], ["d".toList, "f".toList], ["m".toList]⟩
      (fun _ => true)
      [["d".toList, "f".toList, "m".toList, "3-n.pdf".toList]]
      ⟨3, some ("n".toList), none, "u".toList, none⟩ =
      (false, [DlEffect.setPath 3
        (relString ["d".toList, "f".toList]
          (expectedOutSegs ⟨["a".toList], ["d".toList, "f".toList],
            ["m".toList]⟩ ⟨3, some ("n".toList), none, "u".toList, none⟩))],
        [["d".toList, "f".toList, "m".toList, "3-n.pdf".toList]])
    ∧ relString ["d".toList, "f".toList]
        (expectedOutSegs ⟨["a".toList], ["d".toList, "f".toList],
          ["m".toList]⟩ ⟨3, some ("n".toList), none, "u".toList, none⟩) =
      joinWith ['/'] (["m".toList] ++
        [baseNameOf ⟨3, some ("n".toList), none, "u".toList, none⟩]) :=
  download_skip_existing _ _ _ _ (by decide) (by decide)

end BandaiManuals
